import Mathlib

set_option maxRecDepth 100000
set_option maxHeartbeats 4000000

/-!
Shallow embedding of the PPM→PGM image pipeline (`src/zad1.c` and the NEON
variants in `src/unnamed/part_000`, `src/unnamed/part_002`).

Conventions of the embedding:
* `unsigned char` / `uint8_t` values are `ℕ` carrying the invariant `≤ 255`
  where a theorem needs it; rasters are `List ℕ` in row-major order.
* C `double` arithmetic is embedded as exact rational arithmetic (`ℚ`).
  Every operation the pipeline performs on doubles other than division is
  exact integer arithmetic well inside the 53-bit mantissa, so the only
  place the embedding can deviate from IEEE behaviour is a division, and
  the decimal weight constants, which are modelled by their exact values.
* Division by zero on doubles yields `±inf` or `NaN` in C; casting `NaN`
  to an unsigned char is undefined behaviour.  The one site where the
  source can divide by zero (`histogram_transform`) is therefore embedded
  with an explicit case split (`tval`): `±inf` flows through the clamp
  deterministically, `NaN` makes the function return `none`.
-/

namespace Zad1

/-- A `Pixel` from the source: three 8-bit colour channels. -/
structure Pixel where
  r : ℕ
  g : ℕ
  b : ℕ
deriving DecidableEq, Repr

/-- Embedding of `round_clamp` from `src/zad1.c` lines 28–33.  Note the source computes
`double xm = round(x);` into a variable that is never used and then returns
`(unsigned char)x`, which truncates toward zero; for `x ∈ [0,255]` that is
`⌊x⌋`.  The dead `xm` is dropped here. -/
def roundClamp (x : ℚ) : ℕ :=
  if 255 < x then 255
  else if x < 0 then 0
  else (Int.floor x).toNat

/-- Embedding of `ppm_to_pgm_weighted` from `src/zad1.c` lines 39–44: the weighted
luminance `0.299·R + 0.587·G + 0.114·B` pushed through `round_clamp`.
The decimal constants are modelled exactly. -/
def ppm_to_pgm_weighted (p : Pixel) : ℕ :=
  roundClamp ((299 / 1000 : ℚ) * p.r + (587 / 1000 : ℚ) * p.g + (114 / 1000 : ℚ) * p.b)

/-- The occurrence histogram built by the first loop of
`histogram_transform` (`src/zad1.c` lines 49–53). -/
def hist (g : List ℕ) (v : ℕ) : ℕ := g.count v

/-- Embedding of `gmin`: the first intensity in `0..255` with a positive count, `0` if
there is none (`src/zad1.c` lines 56–62). -/
def gmin (g : List ℕ) : ℕ :=
  (((List.range 256).find? fun i => decide (0 < hist g i)).getD 0)

/-- Embedding of `histc`: the cumulative histogram of `src/zad1.c` lines 65–69.  The
source sets `histc[0] = 0` and accumulates from index `1`, so `hist[0]`
never enters any entry. -/
def histc (g : List ℕ) : ℕ → ℕ
  | 0 => 0
  | i + 1 => histc g i + hist g (i + 1)

/-- Embedding of `hmin = histc[gmin]` (`src/zad1.c` line 70). -/
def hmin (g : List ℕ) : ℕ := histc g (gmin g)

/-- One entry `round_clamp(MAXGRAY * (num / den))` of the LUT loop of
`src/zad1.c` lines 74–78, with the double division made explicit:
for `den = 0` the C division yields `−inf` (numerator `< 0`, clamps to 0),
`+inf` (numerator `> 0`, clamps to 255) or `NaN` (numerator `= 0`, whose
cast to `unsigned char` is undefined, embedded as `none`). -/
def tval (num den : ℤ) : Option ℕ :=
  if den = 0 then
    if num < 0 then some 0
    else if 0 < num then some 255
    else none
  else
    some (roundClamp ((255 : ℚ) * ((num : ℚ) / (den : ℚ))))

/-- The full 256-entry LUT `tvals` of `src/zad1.c` lines 73–78:
`tvals[0] = 0`, and for `i ≥ 1` the entry is `tval` of
`histc[i] - hmin` over `size - hmin`.  The C loop evaluates every entry,
so a single `NaN` cast poisons the whole computation (`none`). -/
def tvalsList (g : List ℕ) : Option (List ℕ) :=
  (List.range 256).mapM fun i =>
    if i = 0 then some 0
    else tval ((histc g i : ℤ) - (hmin g : ℤ)) ((g.length : ℤ) - (hmin g : ℤ))

/-- Embedding of `histogram_transform` from `src/zad1.c` lines 46–85: build the LUT and
rewrite every pixel through it (lines 81–84). -/
def histogram_transform (g : List ℕ) : Option (List ℕ) :=
  (tvalsList g).map fun t => g.map fun v => t.getD v 0

/-- Embedding of `gamma_transform` from `src/zad1.c` lines 87–98: a 256-entry LUT
`round_clamp(MAXGRAY * (i/MAXGRAY)^gamma)` applied to every pixel.  The C
function takes a `double gamma` and calls `pow`; the exponent is embedded
as a natural number, for which `pow` on doubles is the exact monoid power
(the claims under verification only use `gamma = 1.0`). -/
def gamma_transform (g : List ℕ) (gamma : ℕ) : List ℕ :=
  let lookup := (List.range 256).map fun (i : ℕ) =>
    roundClamp ((255 : ℚ) * ((i : ℚ) / 255) ^ gamma)
  g.map fun v => lookup.getD v 0

/-- The clamped flat index computed by `get_safe_gval`
(`src/zad1.c` lines 100–107): each coordinate is clamped to its axis
independently, then the row-major index `jj * width + ii` is formed.  The
source's sequence of four `if` statements tests the original `i`, `j`. -/
def safe_index (width height i j : ℤ) : ℤ :=
  let ii0 := if i < 0 then 0 else i
  let jj0 := if j < 0 then 0 else j
  let ii := if width ≤ i then width - 1 else ii0
  let jj := if height ≤ j then height - 1 else jj0
  jj * width + ii

/-- Embedding of `get_safe_gval` from `src/zad1.c` lines 100–108: border-replicated
sampling of the flat grayscale buffer. -/
def get_safe_gval (width height i j : ℤ) (g : List ℕ) : ℕ :=
  g.getD (safe_index width height i j).toNat 0

/-- Embedding of `convolve_3x3` from `src/zad1.c` lines 110–129: for every output pixel
`(i, j)` in row-major write order, accumulate
`kernel[jj*3 + ii] * get_safe_gval(i + ii - 1, j + jj - 1)` over the 3×3
kernel window and `round_clamp` the accumulator once at the end. -/
def convolve_3x3 (width height : ℕ) (g : List ℕ) (kernel : List ℚ) : List ℕ :=
  (List.range height).flatMap fun (j : ℕ) =>
    (List.range width).map fun (i : ℕ) =>
      roundClamp (List.sum ((List.range 3).flatMap (fun (jj : ℕ) =>
        (List.range 3).map (fun (ii : ℕ) =>
          kernel.getD (jj * 3 + ii) 0 *
            (get_safe_gval width height ((i : ℤ) + ii - 1) ((j : ℤ) + jj - 1) g : ℚ)))))

/-- The example 3×3 approximate Gaussian kernel of `src/zad1.c`
lines 303–307. -/
def gaussian_kernel : List ℚ :=
  [1 / 16, 2 / 16, 1 / 16, 2 / 16, 4 / 16, 2 / 16, 1 / 16, 2 / 16, 1 / 16]

/-- Embedding of `arr_sum` from `src/zad1.c` lines 131–137. -/
def arr_sum (a : List ℚ) : ℚ := a.sum

/-- Embedding of `arr_mean` from `src/zad1.c` lines 139–141. -/
def arr_mean (a : List ℚ) : ℚ := arr_sum a / a.length

/-- Embedding of `arr_var` from `src/zad1.c` lines 143–150: note `vals` here are the
histogram COUNT values sliced out of `histv`, so `mean` is the mean of the
counts and the "variance" is taken about that mean of counts. -/
def arr_var (probs vals : List ℚ) : ℚ :=
  let mean := arr_mean vals
  ((probs.zip vals).map fun pv => pv.1 * (pv.2 - mean) ^ 2).sum

/-- The histogram of counts as doubles, `histv` of `src/zad1.c`
lines 155–160. -/
def histvL (g : List ℕ) : List ℚ :=
  (List.range 256).map fun v => (g.count v : ℚ)

/-- The normalized histogram `histp` of `src/zad1.c` lines 162–164. -/
def histpL (g : List ℕ) : List ℚ :=
  (List.range 256).map fun v => (g.count v : ℚ) / (g.length : ℚ)

/-- Embedding of `vars[i]` of `src/zad1.c` lines 168–182: background slice is the first
`i+1` entries, foreground the rest; cost is `om_b*var_b + om_f*var_f`
where `var_*` is `arr_var` over the probability and VALUE slices. -/
def otsu_vars (hv hp : List ℚ) (i : ℕ) : ℚ :=
  let size_b := i + 1
  arr_sum (hp.take size_b) * arr_var (hp.take size_b) (hv.take size_b) +
    arr_sum (hp.drop size_b) * arr_var (hp.drop size_b) (hv.drop size_b)

/-- The argmin scan of `src/zad1.c` lines 185–192: strict `tvar > vars[i]`
update, so the first minimum encountered wins. -/
def otsu_scan : List ℚ → ℚ → ℕ → ℕ → ℕ
  | [], _, th, _ => th
  | v :: rest, tvar, th, i =>
      if tvar > v then otsu_scan rest v i (i + 1)
      else otsu_scan rest tvar th (i + 1)

/-- The threshold `th` selected by `otsu_treshold` (`src/zad1.c` lines
166–192): compute `vars[0..253]`, then scan with `tvar = vars[0]`,
`th = 0`, updating on strict improvement. -/
def otsu_th (g : List ℕ) : ℕ :=
  let vars := (List.range 254).map (otsu_vars (histvL g) (histpL g))
  otsu_scan (vars.drop 1) (vars.getD 0 0) 0 1

/-- Embedding of `otsu_treshold` from `src/zad1.c` lines 152–202 (the source's own
spelling): select the threshold, then binarize with
`grayscale[i] > th ? 255 : 0` (lines 195–201). -/
def otsu_treshold (g : List ℕ) : List ℕ :=
  g.map fun x => if otsu_th g < x then 255 else 0

/-- Outcome of every fallible step of `main` in `src/zad1.c` lines
205–327, in source order.  Parsing and allocation results are abstracted
into their success/failure outcome plus the parsed values; this captures
exactly which error exit is taken and what has been written to the
destination file at that point. -/
structure MainEnv where
  /-- Whether `argc == 3` (line 206). -/
  argcOk : Bool
  /-- both `fopen` calls succeed (line 216). -/
  openOk : Bool
  /-- the first `fgets` loop finds a non-comment line (line 225). -/
  line1Ok : Bool
  /-- Whether `sscanf` yields a token equal to `P6` (line 231). -/
  magicOk : Bool
  /-- the second `fgets` loop finds a non-comment line (line 237). -/
  line2Ok : Bool
  /-- Whether `sscanf` parses two integers (line 242). -/
  dimsOk : Bool
  /-- the third `fgets` loop finds a non-comment line (line 248). -/
  line3Ok : Bool
  /-- Whether `sscanf` parses the max value (line 253). -/
  maxValOk : Bool
  /-- the parsed max channel value. -/
  maxVal : ℤ
  /-- the parsed width. -/
  width : ℤ
  /-- the parsed height. -/
  height : ℤ
  /-- Whether `malloc` for the pixel buffer succeeds (line 267). -/
  pixelAllocOk : Bool
  /-- Whether `fread` returns exactly `size` items (line 274). -/
  freadOk : Bool
  /-- Whether `malloc` for the grayscale buffer succeeds (line 285). -/
  grayAllocOk : Bool
  /-- Whether `malloc` for the second grayscale buffer succeeds (line 310). -/
  newGrayAllocOk : Bool

/-- A write to the destination file: the textual `P5` header
(`src/zad1.c` line 282) or the binary pixel payload (line 321).  The
payload bytes are the final pipeline output; only the fact of the write
matters to the error-path claims, so they are not repeated here. -/
inductive Wr where
  | header (width height : ℤ)
  | payload
deriving DecidableEq, Repr

/-- The control flow of `main` (`src/zad1.c` lines 205–327) as a function
from step outcomes to (exit-ok?, list of writes to the destination).
Every `error_handler` call exits with `EXIT_FAILURE`; the header is
written at line 282, after the pixel read but before the two grayscale
allocations. -/
def zad1_main (e : MainEnv) : Bool × List Wr :=
  if e.argcOk = false then (false, [])
  else if e.openOk = false then (false, [])
  else if e.line1Ok = false then (false, [])
  else if e.magicOk = false then (false, [])
  else if e.line2Ok = false then (false, [])
  else if e.dimsOk = false then (false, [])
  else if e.line3Ok = false then (false, [])
  else if e.maxValOk = false then (false, [])
  else if 255 < e.maxVal then (false, [])
  else if e.width < 1 ∨ e.height < 1 then (false, [])
  else if e.pixelAllocOk = false then (false, [])
  else if e.freadOk = false then (false, [])
  else if e.grayAllocOk = false then (false, [Wr.header e.width e.height])
  else if e.newGrayAllocOk = false then (false, [Wr.header e.width e.height])
  else (true, [Wr.header e.width e.height, Wr.payload])

end Zad1

namespace Neon

open Zad1 (Pixel roundClamp)

/-- The per-lane computation of `neon_weighted_grayscale`
(`src/unnamed/part_000` lines 71–89, identically `src/unnamed/part_002`
lines 65–83): `vmull_u8` widens each product into 16 bits
(max `255·(77+150+29) = 65280 < 2¹⁶`, so the `vaddq_u16` sums are exact),
and `vshrn_n_u16(sum, 8)` is truncating division by 256, whose quotient
is at most 255 and therefore survives the narrowing unchanged. -/
def neon_fix (p : Pixel) : ℕ :=
  (77 * p.r + 150 * p.g + 29 * p.b) / 256

/-- The scalar fallback `ppm_to_pgm_weighted` of `src/unnamed/part_000`
lines 64–69: same weighted sum as `src/zad1.c`, through the truncating
`round_clamp`.  (`src/unnamed/part_002` lines 58–63 omit the clamp and
cast directly, which agrees on in-range sums.) -/
def ppm_to_pgm_weighted (p : Pixel) : ℕ :=
  roundClamp ((299 / 1000 : ℚ) * p.r + (587 / 1000 : ℚ) * p.g + (114 / 1000 : ℚ) * p.b)

/-- Embedding of `neon_weighted_grayscale` (`src/unnamed/part_000` lines 71–95): the
vector loop runs while `i + 8 ≤ size`, i.e. over the first
`(size / 8) * 8` pixels; the scalar fallback handles the remainder. -/
def neon_weighted_grayscale (pixels : List Pixel) : List ℕ :=
  let k := pixels.length / 8 * 8
  (pixels.take k).map neon_fix ++ (pixels.drop k).map ppm_to_pgm_weighted

/-- The 3×3 mean of `neon_mean_filter` (`src/unnamed/part_002` lines
95–117): the nine neighbours are summed (pairwise-add then lanes, a plain
sum, exact in 16 bits since `9·255 = 2295 < 2¹⁶`) and divided by 9; the
quotient is at most 255 so the `uint8_t` cast is exact. -/
def mean9 (width : ℕ) (g : List ℕ) (x y : ℕ) : ℕ :=
  (g.getD ((y - 1) * width + (x - 1)) 0 + g.getD ((y - 1) * width + x) 0 +
      g.getD ((y - 1) * width + (x + 1)) 0 +
      g.getD (y * width + (x - 1)) 0 + g.getD (y * width + x) 0 +
      g.getD (y * width + (x + 1)) 0 +
      g.getD ((y + 1) * width + (x - 1)) 0 + g.getD ((y + 1) * width + x) 0 +
      g.getD ((y + 1) * width + (x + 1)) 0) / 9

/-- Embedding of `neon_mean_filter` (`src/unnamed/part_002` lines 91–121): loops
`y` over `1 ≤ y < height-1` and `x` over `1 ≤ x < width-1`, storing the
3×3 mean into `new_grayscale[y*width + x]`.  The output buffer `buf` is
threaded explicitly; positions the loop never touches keep whatever `buf`
held (in the C program: uninitialized `malloc` memory). -/
def neon_mean_filter (width height : ℕ) (g buf : List ℕ) : List ℕ :=
  (List.range' 1 (height - 2)).foldl
    (fun b y =>
      (List.range' 1 (width - 2)).foldl
        (fun b2 x => b2.set (y * width + x) (mean9 width g x y)) b)
    buf

end Neon

namespace Spec

open Zad1 (Pixel)

/-- Follows the spec: `round_clamp` as §4.1 describes it, round to the NEAREST
integer, then clamp to `[0,255]`.  This is the comparison point for the
source's `round_clamp`, whose computed `round(x)` is discarded. -/
def round_clamp_spec (x : ℚ) : ℕ :=
  let r := Int.floor (x + 1 / 2)
  if r < 0 then 0 else if 255 < r then 255 else r.toNat

/-- The spec's floating-point luminance reference (§4.1, §8):
`round_clamp(0.299·R + 0.587·G + 0.114·B)` with rounding to nearest. -/
def lum_spec (p : Pixel) : ℕ :=
  round_clamp_spec ((299 / 1000 : ℚ) * p.r + (587 / 1000 : ℚ) * p.g + (114 / 1000 : ℚ) * p.b)

/-- The cumulative histogram as `histogram_transform` actually computes
it: `cum[0] = 0` and `cum[i] = Σ_{k=1}^{i} hist[k]`, i.e. the sum that
EXCLUDES `hist[0]` (the amended form of the claim's
`cum[i] = Σ_{k=0}^{i} hist[k]`). -/
def cum_excl (g : List ℕ) (i : ℕ) : ℕ :=
  ((List.range i).map fun k => Zad1.hist g (k + 1)).sum

end Spec

namespace Zad1

/-! ## General helper lemmas -/

theorem toNat_floor_natCast_div (a b : ℕ) :
    (Int.floor ((a : ℚ) / (b : ℚ))).toNat = a / b := by
  rw [Int.floor_toNat, Nat.floor_div_nat, Nat.floor_natCast]

theorem roundClamp_natCast (v : ℕ) (h : v ≤ 255) : roundClamp (v : ℚ) = v := by
  unfold roundClamp
  rw [if_neg (by exact_mod_cast not_lt.mpr h), if_neg (not_lt.mpr (by positivity)),
    Int.floor_natCast, Int.toNat_natCast]

theorem roundClamp_div_of_le (a b : ℕ) (hab : a ≤ b) :
    roundClamp ((255 : ℚ) * ((a : ℚ) / (b : ℚ))) = 255 * a / b := by
  rcases Nat.eq_zero_or_pos b with hb | hb
  · subst hb
    norm_num [roundClamp]
  · have hbq : (0 : ℚ) < (b : ℚ) := by exact_mod_cast hb
    have harg : (255 : ℚ) * ((a : ℚ) / (b : ℚ)) = ((255 * a : ℕ) : ℚ) / (b : ℚ) := by
      push_cast; ring
    have h1 : ¬(255 : ℚ) < ((255 * a : ℕ) : ℚ) / (b : ℚ) := by
      rw [not_lt, div_le_iff₀ hbq]
      have h2 : (255 * a : ℕ) ≤ 255 * b := by omega
      exact_mod_cast h2
    unfold roundClamp
    rw [harg, if_neg h1, if_neg (not_lt.mpr (by positivity)), toNat_floor_natCast_div]

theorem getD_map_range {α : Type} (n : ℕ) (f : ℕ → α) (d : α) {i : ℕ} (h : i < n) :
    ((List.range n).map f).getD i d = f i := by
  rw [List.getD_eq_getElem _ _ (by simpa using h), List.getElem_map, List.getElem_range]

theorem mapM_eq_map_of_forall {α β : Type} (f : α → Option β) (gf : α → β) :
    ∀ l : List α, (∀ a ∈ l, f a = some (gf a)) → l.mapM f = some (l.map gf)
  | [], _ => rfl
  | a :: l, h => by
    rw [List.mapM_cons, h a (List.mem_cons_self a l),
      mapM_eq_map_of_forall f gf l fun x hx => h x (List.mem_cons_of_mem a hx)]
    rfl

theorem map_congr_mem {α β : Type} (f f' : α → β) :
    ∀ l : List α, (∀ a ∈ l, f a = f' a) → l.map f = l.map f'
  | [], _ => rfl
  | a :: l, h => by
    rw [List.map_cons, List.map_cons, h a (List.mem_cons_self a l),
      map_congr_mem f f' l fun x hx => h x (List.mem_cons_of_mem a hx)]

theorem map_eq_self_of_forall {α : Type} (f : α → α) :
    ∀ l : List α, (∀ a ∈ l, f a = a) → l.map f = l
  | [], _ => rfl
  | a :: l, h => by
    rw [List.map_cons, h a (List.mem_cons_self a l),
      map_eq_self_of_forall f l fun x hx => h x (List.mem_cons_of_mem a hx)]

/-! ## C1: the uniform-raster zero divisor is NOT guarded -/

/-- C1: on the uniform two-pixel raster `[5, 5]` — exactly the claimed
edge case, since `N = hmin` — `histogram_transform` does not short-circuit
to the identity: it divides by zero, and the `0/0 = NaN` entries of the
LUT are cast to `unsigned char`, which is undefined behaviour (`none` in
this embedding), not the input raster.  No guard on `size == hmin` exists
anywhere in `src/zad1.c` lines 46–85. -/
theorem hist_uniform_divzero :
    histogram_transform [5, 5] = none ∧ [5, 5].length = hmin [5, 5] := by
  constructor
  · with_unfolding_all decide
  · with_unfolding_all decide

/-! ## C4: round_clamp truncates, it does not round -/

/-- C4: the Luminance Converter does NOT round to nearest.  For the pixel
`(0,0,5)` the weighted sum is `0.57`; the spec's `round_clamp` (round to
nearest, then clamp — `lum_spec`) yields `1`, but the source's
`round_clamp` returns `(unsigned char)x`, truncating to `0` (its computed
`round(x)` is stored in a dead variable `xm` and discarded,
`src/zad1.c` lines 28–33). -/
theorem lum_round_discarded :
    ppm_to_pgm_weighted ⟨0, 0, 5⟩ = 0 ∧ Spec.lum_spec ⟨0, 0, 5⟩ = 1 := by
  constructor
  · with_unfolding_all decide
  · with_unfolding_all decide

/-! ## C2: the Otsu binarizer minimizes the variance of histogram counts,
not the within-class intensity variance -/

theorem arr_sum_nonneg (a : List ℚ) (h : ∀ x ∈ a, 0 ≤ x) : 0 ≤ arr_sum a :=
  List.sum_nonneg h

theorem arr_var_nonneg (probs vals : List ℚ) (h : ∀ p ∈ probs, 0 ≤ p) :
    0 ≤ arr_var probs vals := by
  unfold arr_var
  apply List.sum_nonneg
  intro x hx
  simp only [List.mem_map] at hx
  obtain ⟨⟨p, v⟩, hpv, rfl⟩ := hx
  exact mul_nonneg (h p (List.of_mem_zip hpv).1) (sq_nonneg _)

theorem histpL_nonneg (g : List ℕ) : ∀ p ∈ histpL g, 0 ≤ p := by
  intro p hp
  unfold histpL at hp
  simp only [List.mem_map] at hp
  obtain ⟨v, _, rfl⟩ := hp
  positivity

theorem otsu_vars_nonneg (hv hp : List ℚ) (hhp : ∀ p ∈ hp, 0 ≤ p) (i : ℕ) :
    0 ≤ otsu_vars hv hp i := by
  unfold otsu_vars
  have ht : ∀ p ∈ hp.take (i + 1), 0 ≤ p := fun p hp' => hhp p (List.mem_of_mem_take hp')
  have hd : ∀ p ∈ hp.drop (i + 1), 0 ≤ p := fun p hp' => hhp p (List.mem_of_mem_drop hp')
  exact add_nonneg (mul_nonneg (arr_sum_nonneg _ ht) (arr_var_nonneg _ _ ht))
    (mul_nonneg (arr_sum_nonneg _ hd) (arr_var_nonneg _ _ hd))

theorem otsu_scan_of_nonneg :
    ∀ (l : List ℚ) (th k : ℕ), (∀ v ∈ l, 0 ≤ v) → otsu_scan l 0 th k = th
  | [], _, _, _ => rfl
  | v :: rest, th, k, h => by
    unfold otsu_scan
    rw [if_neg (not_lt.mpr (h v (List.mem_cons_self v rest)))]
    exact otsu_scan_of_nonneg rest th (k + 1) fun x hx => h x (List.mem_cons_of_mem v hx)

/-- C2: the code's candidate cost is NOT the within-class intensity
variance.  `arr_var` takes the mean of the sliced histogram COUNT values
and sums `p·(count − mean_of_counts)²`, so on the raster `[0, 1]` the cost
is minimized (cost `0`) by `t = 1`, which puts both populated bins in one
class — whereas the claim's within-class intensity variance is `0` at
`t = 0` (each class holds a single populated intensity), making `t* = 0`
and the output `[0, 255]`.  The code instead maps both pixels to black. -/
theorem otsu_variance_of_counts : otsu_treshold [0, 1] = [0, 0] := by
  have hF0 : 0 < otsu_vars (histvL [0, 1]) (histpL [0, 1]) 0 := by
    with_unfolding_all decide
  have hF1 : otsu_vars (histvL [0, 1]) (histpL [0, 1]) 1 = 0 := by
    with_unfolding_all decide
  have hrange : List.range 254 = 0 :: 1 :: List.range' 2 252 := by decide
  have hth : otsu_th [0, 1] = 1 := by
    unfold otsu_th
    rw [hrange, List.map_cons, List.map_cons]
    simp only [List.drop_succ_cons, List.drop_zero, List.getD_cons_zero]
    unfold otsu_scan
    rw [if_pos (by rw [hF1]; exact hF0), hF1]
    apply otsu_scan_of_nonneg
    intro v hv
    simp only [List.mem_map] at hv
    obtain ⟨i, _, rfl⟩ := hv
    exact otsu_vars_nonneg _ _ (histpL_nonneg [0, 1]) i
  unfold otsu_treshold
  rw [hth]
  decide

/-! ## C3: the cumulative histogram of the LUT excludes hist[0] -/

theorem histc_eq_cum_excl (g : List ℕ) : ∀ i, histc g i = Spec.cum_excl g i := by
  intro i
  induction i with
  | zero => rfl
  | succ n ih =>
    show histc g n + hist g (n + 1) = _
    rw [ih]
    unfold Spec.cum_excl
    rw [List.range_succ, List.map_append, List.sum_append]
    simp

/-- C3 counterexample: on the raster `[0, 255]` the claim's LUT — built
from the INCLUSIVE cumulative histogram `cum[i] = Σ_{k=0}^{i} hist[k]`,
with `hmin = cum[gmin]` — maps the raster to `[0, 255]`, but the code
(whose `histc` starts at index 1 and never adds `hist[0]`) produces
`[0, 127]`. -/
theorem hist_cum_includes_h0_cex :
    histogram_transform [0, 255] ≠
      some (([0, 255] : List ℕ).map fun v =>
        if v = 0 then 0
        else roundClamp ((255 : ℚ) *
          ((((List.range (v + 1)).map fun k => (hist [0, 255] k : ℚ)).sum -
              ((List.range (gmin [0, 255] + 1)).map fun k => (hist [0, 255] k : ℚ)).sum) /
            ((([0, 255] : List ℕ).length : ℚ) -
              ((List.range (gmin [0, 255] + 1)).map fun k => (hist [0, 255] k : ℚ)).sum)))) := by
  with_unfolding_all decide

/-- C3 amended: the LUT is built from the EXCLUSIVE cumulative histogram
`cum[0] = 0`, `cum[i] = Σ_{k=1}^{i} hist[k]` (so `hist[0]` is never
included), with `hmin = cum[gmin]`, `T[0] = 0` and, whenever `N ≠ hmin`
(nonzero divisor), `T[i] = round_clamp(255·(cum[i] − hmin)/(N − hmin))`
for `i` in `1..255`; every pixel is mapped through `T`. -/
theorem hist_transform_lut_formula (g : List ℕ) (hg : ∀ x ∈ g, x ≤ 255)
    (hne : g.length ≠ hmin g) :
    histogram_transform g = some (g.map fun v =>
      if v = 0 then 0
      else roundClamp ((255 : ℚ) *
        (((Spec.cum_excl g v : ℚ) - (Spec.cum_excl g (gmin g) : ℚ)) /
          ((g.length : ℚ) - (Spec.cum_excl g (gmin g) : ℚ))))) := by
  have hm : hmin g = Spec.cum_excl g (gmin g) := histc_eq_cum_excl g (gmin g)
  have hden : ((g.length : ℤ) - (hmin g : ℤ)) ≠ 0 := by
    have h2 : (g.length : ℤ) ≠ (hmin g : ℤ) := by exact_mod_cast hne
    exact sub_ne_zero.mpr h2
  have hT : tvalsList g = some ((List.range 256).map fun i =>
      if i = 0 then 0
      else roundClamp ((255 : ℚ) *
        (((Spec.cum_excl g i : ℚ) - (Spec.cum_excl g (gmin g) : ℚ)) /
          ((g.length : ℚ) - (Spec.cum_excl g (gmin g) : ℚ))))) := by
    apply mapM_eq_map_of_forall
    intro i _
    by_cases h0 : i = 0
    · rw [if_pos h0, if_pos h0]
    · rw [if_neg h0, if_neg h0]
      unfold tval
      rw [if_neg hden]
      have harg : ((((histc g i : ℤ) - (hmin g : ℤ)) : ℤ) : ℚ) /
          ((((g.length : ℤ) - (hmin g : ℤ)) : ℤ) : ℚ) =
          ((Spec.cum_excl g i : ℚ) - (Spec.cum_excl g (gmin g) : ℚ)) /
            ((g.length : ℚ) - (Spec.cum_excl g (gmin g) : ℚ)) := by
        rw [histc_eq_cum_excl g i, hm]
        push_cast
        ring
      rw [harg]
  unfold histogram_transform
  rw [hT]
  simp only [Option.map_some']
  congr 1
  apply map_congr_mem
  intro v hv
  have hv' : v < 256 := by
    have := hg v hv
    omega
  rw [getD_map_range 256 _ 0 hv']

/-- Witness for C3's amended theorem at the raster `[0, 255]`. -/
theorem hist_transform_lut_formula_witness :
    histogram_transform [0, 255] = some (([0, 255] : List ℕ).map fun v =>
      if v = 0 then 0
      else roundClamp ((255 : ℚ) *
        (((Spec.cum_excl [0, 255] v : ℚ) - (Spec.cum_excl [0, 255] (gmin [0, 255]) : ℚ)) /
          ((([0, 255] : List ℕ).length : ℚ) -
            (Spec.cum_excl [0, 255] (gmin [0, 255]) : ℚ))))) :=
  hist_transform_lut_formula [0, 255] (by decide) (by decide)

/-! ## C5: error paths and partial writes of main -/

theorem zad1_main_cases (e : MainEnv) :
    (zad1_main e).1 = true ∨ (zad1_main e).2 = [] ∨
      ((zad1_main e).2 = [Wr.header e.width e.height] ∧
        (e.grayAllocOk = false ∨ e.newGrayAllocOk = false)) := by
  unfold zad1_main
  by_cases h1 : e.argcOk = false
  · rw [if_pos h1]; exact Or.inr (Or.inl rfl)
  rw [if_neg h1]
  by_cases h2 : e.openOk = false
  · rw [if_pos h2]; exact Or.inr (Or.inl rfl)
  rw [if_neg h2]
  by_cases h3 : e.line1Ok = false
  · rw [if_pos h3]; exact Or.inr (Or.inl rfl)
  rw [if_neg h3]
  by_cases h4 : e.magicOk = false
  · rw [if_pos h4]; exact Or.inr (Or.inl rfl)
  rw [if_neg h4]
  by_cases h5 : e.line2Ok = false
  · rw [if_pos h5]; exact Or.inr (Or.inl rfl)
  rw [if_neg h5]
  by_cases h6 : e.dimsOk = false
  · rw [if_pos h6]; exact Or.inr (Or.inl rfl)
  rw [if_neg h6]
  by_cases h7 : e.line3Ok = false
  · rw [if_pos h7]; exact Or.inr (Or.inl rfl)
  rw [if_neg h7]
  by_cases h8 : e.maxValOk = false
  · rw [if_pos h8]; exact Or.inr (Or.inl rfl)
  rw [if_neg h8]
  by_cases h9 : 255 < e.maxVal
  · rw [if_pos h9]; exact Or.inr (Or.inl rfl)
  rw [if_neg h9]
  by_cases h10 : e.width < 1 ∨ e.height < 1
  · rw [if_pos h10]; exact Or.inr (Or.inl rfl)
  rw [if_neg h10]
  by_cases h11 : e.pixelAllocOk = false
  · rw [if_pos h11]; exact Or.inr (Or.inl rfl)
  rw [if_neg h11]
  by_cases h12 : e.freadOk = false
  · rw [if_pos h12]; exact Or.inr (Or.inl rfl)
  rw [if_neg h12]
  by_cases h13 : e.grayAllocOk = false
  · rw [if_pos h13]; exact Or.inr (Or.inr ⟨rfl, Or.inl h13⟩)
  rw [if_neg h13]
  by_cases h14 : e.newGrayAllocOk = false
  · rw [if_pos h14]; exact Or.inr (Or.inr ⟨rfl, Or.inr h14⟩)
  rw [if_neg h14]
  exact Or.inl rfl

/-- C5 counterexample: when the grayscale `malloc` at `src/zad1.c` line
284 fails (an error detected after the destination was opened), the
program exits with failure but the `P5` header has already been written
at line 282 — the destination is left with partial output, contradicting
the claim that no bytes are ever written on an error path. -/
theorem main_partial_header_cex :
    (zad1_main ⟨true, true, true, true, true, true, true, true,
        255, 2, 2, true, true, false, true⟩).1 = false ∧
    (zad1_main ⟨true, true, true, true, true, true, true, true,
        255, 2, 2, true, true, false, true⟩).2 ≠ [] := by
  decide

/-- C5 amended: on every error path the destination holds either nothing
(all errors detected up to and including the pixel-payload read) or
exactly the textual header (the two grayscale-buffer allocation failures,
which occur after the header write at line 282); the pixel payload is
never partially written. -/
theorem main_error_write_policy (e : MainEnv) (h : (zad1_main e).1 = false) :
    (zad1_main e).2 = [] ∨
      ((zad1_main e).2 = [Wr.header e.width e.height] ∧
        (e.grayAllocOk = false ∨ e.newGrayAllocOk = false)) := by
  rcases zad1_main_cases e with hk | hk
  · rw [h] at hk
    exact Bool.noConfusion hk
  · exact hk

/-- Witness for C5's amended theorem: a failing `fgets` before the magic
token (error before the header write) produces no output at all. -/
theorem main_error_write_policy_witness :
    (zad1_main ⟨true, true, false, true, true, true, true, true,
        255, 2, 2, true, true, true, true⟩).2 = [] ∨
      ((zad1_main ⟨true, true, false, true, true, true, true, true,
          255, 2, 2, true, true, true, true⟩).2 = [Wr.header 2 2] ∧
        ((true : Bool) = false ∨ (true : Bool) = false)) :=
  main_error_write_policy _ (by decide)

/-! ## C6: convolution with border replication -/

theorem flatMap_rows_length {α : Type} (w : ℕ) (f : ℕ → ℕ → α) :
    ∀ h : ℕ, ((List.range h).flatMap fun j => (List.range w).map fun i => f i j).length =
      h * w := by
  intro h
  induction h with
  | zero => simp
  | succ n ih =>
    rw [List.range_succ, List.flatMap_append, List.length_append, ih]
    simp [List.flatMap_cons, List.flatMap_nil, Nat.succ_mul]

theorem flatMap_rows_getD {α : Type} (w : ℕ) (f : ℕ → ℕ → α) (d : α) :
    ∀ (h : ℕ) (x y : ℕ), x < w → y < h →
      ((List.range h).flatMap fun j => (List.range w).map fun i => f i j).getD
        (y * w + x) d = f x y := by
  intro h
  induction h with
  | zero => exact fun x y _ hy => absurd hy (Nat.not_lt_zero y)
  | succ n ih =>
    intro x y hx hy
    rw [List.range_succ, List.flatMap_append]
    rcases Nat.lt_or_ge y n with hlt | hge
    · rw [List.getD_append]
      · exact ih x y hx hlt
      · rw [flatMap_rows_length]
        have h2 : (y + 1) * w ≤ n * w := Nat.mul_le_mul_right w (Nat.succ_le_of_lt hlt)
        have h3 : y * w + w = (y + 1) * w := by ring
        omega
    · have hyn : y = n := by omega
      subst hyn
      rw [List.getD_append_right]
      · rw [flatMap_rows_length, Nat.add_sub_cancel_left]
        simp only [List.flatMap_cons, List.flatMap_nil, List.append_nil]
        exact getD_map_range w _ d hx
      · rw [flatMap_rows_length]
        omega

theorem safe_index_bounds (w h i j : ℤ) (hw : 1 ≤ w) (hh : 1 ≤ h) :
    0 ≤ safe_index w h i j ∧ safe_index w h i j < h * w := by
  simp only [safe_index]
  have hii : 0 ≤ (if w ≤ i then w - 1 else if i < 0 then 0 else i) ∧
      (if w ≤ i then w - 1 else if i < 0 then 0 else i) ≤ w - 1 := by
    constructor <;> split_ifs <;> omega
  have hjj : 0 ≤ (if h ≤ j then h - 1 else if j < 0 then 0 else j) ∧
      (if h ≤ j then h - 1 else if j < 0 then 0 else j) ≤ h - 1 := by
    constructor <;> split_ifs <;> omega
  obtain ⟨h1, h2⟩ := hii
  obtain ⟨h3, h4⟩ := hjj
  constructor
  · exact add_nonneg (mul_nonneg h3 (by omega)) h1
  · have h5 : (if h ≤ j then h - 1 else if j < 0 then 0 else j) * w ≤ (h - 1) * w :=
      mul_le_mul_of_nonneg_right h4 (by omega)
    have h6 : (h - 1) * w = h * w - w := by ring
    omega

/-- C6: the Convolution Filter.  First conjunct: every output pixel
`(x, y)` equals `round_clamp` of the 3×3 kernel-weighted sum of
border-replicated samples `sample(x+dx, y+dy)`, `dy, dx ∈ {-1,0,1}`.
Second conjunct: the clamped flat index of every sample lies inside the
`width*height` buffer, so no sample reads out of bounds.  Third conjunct:
on a 1×1 image every sample, for any offset, is the single pixel. -/
theorem convolve_replicated_border :
    (∀ (w h : ℕ) (g : List ℕ) (kernel : List ℚ), 1 ≤ w → 1 ≤ h →
      ∀ x y : ℕ, x < w → y < h →
        (convolve_3x3 w h g kernel).getD (y * w + x) 0 =
          roundClamp (List.sum (([-1, 0, 1] : List ℤ).flatMap fun dy =>
            ([-1, 0, 1] : List ℤ).map fun dx =>
              kernel.getD ((dy + 1) * 3 + (dx + 1)).toNat 0 *
                (get_safe_gval w h ((x : ℤ) + dx) ((y : ℤ) + dy) g : ℚ)))) ∧
    (∀ (w h : ℕ) (i j : ℤ) (g : List ℕ), 1 ≤ w → 1 ≤ h → g.length = w * h →
      (safe_index w h i j).toNat < g.length) ∧
    (∀ (p : ℕ) (i j : ℤ), get_safe_gval 1 1 i j [p] = p) := by
  refine ⟨?_, ?_, ?_⟩
  · intro w h g kernel hw hh x y hx hy
    unfold convolve_3x3
    rw [flatMap_rows_getD w _ 0 h x y hx hy]
    congr 1
    simp only [show List.range 3 = [0, 1, 2] from rfl, List.flatMap_cons,
      List.flatMap_nil, List.map_cons, List.map_nil, List.append_nil,
      List.cons_append, List.nil_append, List.sum_cons, List.sum_nil]
    norm_num [Int.toNat_ofNat]
    simp only [show Int.toNat 2 = 2 from rfl, show Int.toNat 3 = 3 from rfl,
      show Int.toNat 4 = 4 from rfl, show Int.toNat 5 = 5 from rfl,
      show Int.toNat 6 = 6 from rfl, show Int.toNat 7 = 7 from rfl,
      show Int.toNat 8 = 8 from rfl]
    ring_nf
  · intro w h i j g hw hh hlen
    have hb := safe_index_bounds w h i j (by exact_mod_cast hw) (by exact_mod_cast hh)
    have hc : ((w * h : ℕ) : ℤ) = (h : ℤ) * (w : ℤ) := by push_cast; ring
    omega
  · intro p i j
    unfold get_safe_gval
    have hz : safe_index 1 1 i j = 0 := by
      simp only [safe_index]
      split_ifs <;> omega
    rw [hz]
    rfl

/-- Witness for C6 on a 1×1 raster with the source's Gaussian kernel. -/
theorem convolve_replicated_border_witness :
    (convolve_3x3 1 1 [7] gaussian_kernel).getD 0 0 =
      roundClamp (List.sum (([-1, 0, 1] : List ℤ).flatMap fun dy =>
        ([-1, 0, 1] : List ℤ).map fun dx =>
          gaussian_kernel.getD ((dy + 1) * 3 + (dx + 1)).toNat 0 *
            (get_safe_gval 1 1 (((0 : ℕ) : ℤ) + dx) (((0 : ℕ) : ℤ) + dy) [7] : ℚ))) ∧
    (safe_index 1 1 (-1) 2).toNat < ([7] : List ℕ).length ∧
    get_safe_gval 1 1 (-3) 9 [7] = 7 :=
  ⟨convolve_replicated_border.1 1 1 [7] gaussian_kernel (by decide) (by decide)
      0 0 (by decide) (by decide),
    convolve_replicated_border.2.1 1 1 (-1) 2 [7] (by decide) (by decide) (by decide),
    convolve_replicated_border.2.2 7 (-3) 9⟩

/-! ## C9: idempotence of histogram equalization on 0/255 rasters -/

theorem count_add_count_le (a b : ℕ) (hab : a ≠ b) :
    ∀ l : List ℕ, l.count a + l.count b ≤ l.length := by
  intro l
  induction l with
  | nil => simp
  | cons x xs ih =>
    simp only [List.count_cons, List.length_cons, beq_iff_eq]
    split_ifs <;> omega

theorem histc_two_val (w : ℕ) (hw : 1 ≤ w) (g : List ℕ)
    (hg : ∀ x ∈ g, x = 0 ∨ x = w) :
    ∀ i, histc g i = if w ≤ i then g.count w else 0 := by
  have hzero : ∀ k, k ≠ 0 → k ≠ w → hist g k = 0 := by
    intro k hk0 hkw
    unfold hist
    rw [List.count_eq_zero]
    intro hkmem
    rcases hg k hkmem with h | h
    · exact hk0 h
    · exact hkw h
  intro i
  induction i with
  | zero =>
    rw [if_neg (by omega)]
    rfl
  | succ n ih =>
    show histc g n + hist g (n + 1) = _
    rw [ih]
    by_cases hwn : w ≤ n
    · rw [if_pos hwn, if_pos (by omega), hzero (n + 1) (by omega) (by omega)]
      omega
    · by_cases hwn1 : w = n + 1
      · rw [if_neg hwn, if_pos (by omega), ← hwn1]
        unfold hist
        omega
      · rw [if_neg hwn, if_neg (by omega), hzero (n + 1) (by omega) (by omega)]

theorem gmin_two (g : List ℕ) (h0 : 0 < g.count 0) : gmin g = 0 := by
  unfold gmin
  rw [show (256 : ℕ) = 255 + 1 from rfl, List.range_succ_eq_map,
    List.find?_cons_of_pos]
  · rfl
  · simp only [decide_eq_true_eq]
    exact h0

/-- Closed form of `histogram_transform` on any raster whose intensities
are only `0` and `w` (`1 ≤ w ≤ 255`) with at least one `0` pixel: the
divisor is `N`, the LUT sends `0` to `0` and `w` to
`⌊255·count(w)/N⌋`. -/
theorem hist_transform_two_val (w : ℕ) (hw1 : 1 ≤ w) (hw2 : w ≤ 255) (g : List ℕ)
    (hg : ∀ x ∈ g, x = 0 ∨ x = w) (h0 : 0 < g.count 0) :
    histogram_transform g = some (g.map fun x =>
      if x = w then 255 * g.count w / g.length else 0) := by
  have hcl := List.count_le_length 0 g
  have hlen : g.length ≠ 0 := by omega
  have hgmin := gmin_two g h0
  have hhmin : hmin g = 0 := by
    unfold hmin
    rw [hgmin]
    rfl
  have hhistc := histc_two_val w hw1 g hg
  have hb : g.count w ≤ g.length := List.count_le_length w g
  have hden : ((g.length : ℤ) - (hmin g : ℤ)) ≠ 0 := by
    rw [hhmin]
    simpa using hlen
  have hT : tvalsList g = some ((List.range 256).map fun i =>
      if i = 0 then 0 else if w ≤ i then 255 * g.count w / g.length else 0) := by
    apply mapM_eq_map_of_forall
    intro i _
    by_cases hi0 : i = 0
    · rw [if_pos hi0, if_pos hi0]
    · rw [if_neg hi0, if_neg hi0]
      unfold tval
      rw [if_neg hden, hhistc i, hhmin]
      by_cases hwi : w ≤ i
      · rw [if_pos hwi, if_pos hwi]
        have harg : ((((g.count w : ℕ) : ℤ) - ((0 : ℕ) : ℤ) : ℤ) : ℚ) /
            (((g.length : ℤ) - ((0 : ℕ) : ℤ) : ℤ) : ℚ) =
            ((g.count w : ℕ) : ℚ) / ((g.length : ℕ) : ℚ) := by
          push_cast
          ring
        rw [harg, roundClamp_div_of_le _ _ hb]
      · rw [if_neg hwi, if_neg hwi]
        have harg : (255 : ℚ) * ((((0 : ℕ) : ℤ) - ((0 : ℕ) : ℤ) : ℤ) : ℚ) /
            (((g.length : ℤ) - ((0 : ℕ) : ℤ) : ℤ) : ℚ) = ((0 : ℕ) : ℚ) := by
          push_cast
          ring
        rw [mul_div_assoc] at harg
        rw [harg, roundClamp_natCast 0 (by omega)]
  unfold histogram_transform
  rw [hT]
  simp only [Option.map_some']
  congr 1
  apply map_congr_mem
  intro x hx
  rcases hg x hx with rfl | rfl
  · rw [getD_map_range 256 _ 0 (by omega), if_pos rfl, if_neg (by omega)]
  · rw [getD_map_range 256 _ 0 (by omega), if_neg (by omega), if_pos (le_refl _),
      if_pos rfl]

theorem count_map_two (v : ℕ) (hv : v ≠ 0) :
    ∀ g : List ℕ, (∀ x ∈ g, x = 0 ∨ x = 255) →
      (g.map fun x => if x = 255 then v else 0).count 0 = g.count 0 ∧
      (g.map fun x => if x = 255 then v else 0).count v = g.count 255 := by
  intro g hg
  induction g with
  | nil => simp
  | cons x xs ih =>
    have hxs := ih fun y hy => hg y (List.mem_cons_of_mem x hy)
    rcases hg x (List.mem_cons_self x xs) with rfl | rfl
    · rw [List.map_cons, show (if (0 : ℕ) = 255 then v else 0) = 0 from by norm_num]
      constructor
      · rw [List.count_cons_self, List.count_cons_self, hxs.1]
      · rw [List.count_cons_of_ne hv, List.count_cons_of_ne (by omega), hxs.2]
    · rw [List.map_cons, show (if (255 : ℕ) = 255 then v else 0) = v from by norm_num]
      constructor
      · rw [List.count_cons_of_ne (fun h => hv h.symm),
          List.count_cons_of_ne (by omega), hxs.1]
      · rw [List.count_cons_self, List.count_cons_self, hxs.2]

/-- C9 counterexample: the all-255 raster `[255]` consists only of the
intensities 0 and 255 ("in any proportion"), yet `histogram_transform`
yields no raster at all: `hmin = N`, so the `0/0 = NaN` LUT entry at
index 255 is cast to `unsigned char` — undefined behaviour, embedded as
`none` — and the claimed idempotence equation has no defined value. -/
theorem hist_idem_all255_cex : histogram_transform [255] = none := by
  with_unfolding_all decide

/-- C9 amended: on rasters containing only intensities 0 and 255 with at
least one 0 pixel (excluding only the all-255 raster, where the code
divides by zero), equalization is defined and applying it a second time
to its own output yields that same output. -/
theorem hist_equalize_idem (g : List ℕ) (hg : ∀ x ∈ g, x = 0 ∨ x = 255)
    (h0 : 0 < g.count 0) :
    (histogram_transform g).bind histogram_transform = histogram_transform g ∧
      histogram_transform g ≠ none := by
  have h1 : histogram_transform g = some (g.map fun x =>
      if x = 255 then 255 * g.count 255 / g.length else 0) :=
    hist_transform_two_val 255 (by omega) (le_refl 255) g hg h0
  obtain ⟨v, hv_def⟩ : ∃ v, v = 255 * g.count 255 / g.length := ⟨_, rfl⟩
  rw [← hv_def] at h1
  obtain ⟨gm, hgm_def⟩ : ∃ l, l = g.map fun x => if x = 255 then v else 0 := ⟨_, rfl⟩
  rw [← hgm_def] at h1
  have hcl := List.count_le_length 0 g
  have hlen : g.length ≠ 0 := by omega
  have hblt : g.count 255 < g.length := by
    have hc := count_add_count_le 0 255 (by omega) g
    omega
  have hv255 : v < 255 := by
    rw [hv_def, Nat.div_lt_iff_lt_mul (by omega)]
    exact mul_lt_mul_of_pos_left hblt (by omega)
  have hmem2 : ∀ x ∈ gm, x = 0 ∨ x = v := by
    intro x hx
    rw [hgm_def] at hx
    simp only [List.mem_map] at hx
    obtain ⟨y, hy, rfl⟩ := hx
    rcases hg y hy with rfl | rfl
    · left
      rw [if_neg (by omega)]
    · right
      rw [if_pos rfl]
  have hlen2 : gm.length = g.length := by
    rw [hgm_def, List.length_map]
  by_cases hv0 : v = 0
  · have hall : ∀ x ∈ gm, x = 0 := by
      intro x hx
      rcases hmem2 x hx with h | h
      · exact h
      · rw [h, hv0]
    have h02 : 0 < gm.count 0 := by
      have hce : gm.count 0 = gm.length := List.count_eq_length.mpr
        fun y hy => (hall y hy).symm
      rw [hce, hlen2]
      omega
    have hg2 : ∀ x ∈ gm, x = 0 ∨ x = 255 := fun x hx => Or.inl (hall x hx)
    have h2 : histogram_transform gm = some (gm.map fun x =>
        if x = 255 then 255 * gm.count 255 / gm.length else 0) :=
      hist_transform_two_val 255 (by omega) (le_refl 255) gm hg2 h02
    have h3 : (gm.map fun x =>
        if x = 255 then 255 * gm.count 255 / gm.length else 0) = gm := by
      apply map_eq_self_of_forall
      intro x hx
      rw [if_neg (by have := hall x hx; omega)]
      exact (hall x hx).symm
    rw [h1]
    refine ⟨?_, by simp⟩
    rw [show (some gm).bind histogram_transform = histogram_transform gm from rfl,
      h2, h3]
  · have hcounts := count_map_two v hv0 g hg
    have h02 : 0 < gm.count 0 := by
      rw [hgm_def, hcounts.1]
      exact h0
    have h2 : histogram_transform gm = some (gm.map fun x =>
        if x = v then 255 * gm.count v / gm.length else 0) :=
      hist_transform_two_val v (by omega) (by omega) gm hmem2 h02
    have hval : 255 * gm.count v / gm.length = v := by
      rw [hlen2, hgm_def, hcounts.2, ← hv_def]
    have h3 : (gm.map fun x =>
        if x = v then 255 * gm.count v / gm.length else 0) = gm := by
      apply map_eq_self_of_forall
      intro x hx
      rcases hmem2 x hx with rfl | rfl
      · rw [if_neg (by omega)]
      · rw [if_pos rfl, hval]
    rw [h1]
    refine ⟨?_, by simp⟩
    rw [show (some gm).bind histogram_transform = histogram_transform gm from rfl,
      h2, h3]

/-- Witness for C9's amended theorem at the raster `[0, 255]`. -/
theorem hist_equalize_idem_witness :
    (histogram_transform [0, 255]).bind histogram_transform =
      histogram_transform [0, 255] ∧ histogram_transform [0, 255] ≠ none :=
  hist_equalize_idem [0, 255] (by decide) (by decide)

/-! ## C8: gamma = 1.0 is the identity transform -/

/-- C8: with `gamma = 1.0` the lookup table of `gamma_transform` maps
every intensity `0..255` to itself, so the output raster equals the input
raster. -/
theorem gamma_one_identity (g : List ℕ) (hg : ∀ x ∈ g, x ≤ 255) :
    gamma_transform g 1 = g := by
  unfold gamma_transform
  refine map_eq_self_of_forall _ g fun v hv => ?_
  have hv' : v ≤ 255 := hg v hv
  rw [getD_map_range 256 _ 0 (by omega)]
  have harg : (255 : ℚ) * ((v : ℚ) / 255) ^ 1 = (v : ℚ) := by
    field_simp
  rw [harg, roundClamp_natCast v hv']

/-- Witness for C8 at a concrete raster. -/
theorem gamma_one_identity_witness :
    gamma_transform [0, 17, 128, 255] 1 = [0, 17, 128, 255] :=
  gamma_one_identity [0, 17, 128, 255] (by decide)

end Zad1

namespace Neon

open Zad1 (Pixel roundClamp)

/-! ## C7: fixed-point grayscale is within 1 of the floating-point
reference -/

theorem roundClamp_natCast_div (a b : ℕ) (h : a ≤ 255 * b) :
    roundClamp ((a : ℚ) / (b : ℚ)) = a / b := by
  rcases Nat.eq_zero_or_pos b with hb | hb
  · subst hb
    norm_num [roundClamp]
  · have hbq : (0 : ℚ) < (b : ℚ) := by exact_mod_cast hb
    have h1 : ¬(255 : ℚ) < (a : ℚ) / (b : ℚ) := by
      rw [not_lt, div_le_iff₀ hbq]
      exact_mod_cast h
    unfold roundClamp
    rw [if_neg h1, if_neg (not_lt.mpr (by positivity)),
      Zad1.toNat_floor_natCast_div]

theorem lum_spec_eq_div (p : Pixel) (hr : p.r ≤ 255) (hg : p.g ≤ 255)
    (hb : p.b ≤ 255) :
    Spec.lum_spec p = (2 * (299 * p.r + 587 * p.g + 114 * p.b) + 1000) / 2000 := by
  unfold Spec.lum_spec Spec.round_clamp_spec
  simp only []
  have hfl : Int.floor ((299 / 1000 : ℚ) * p.r + (587 / 1000 : ℚ) * p.g +
      (114 / 1000 : ℚ) * p.b + 1 / 2) =
      ((2 * (299 * p.r + 587 * p.g + 114 * p.b) + 1000) / 2000 : ℕ) := by
    rw [show (299 / 1000 : ℚ) * p.r + (587 / 1000 : ℚ) * p.g +
        (114 / 1000 : ℚ) * p.b + 1 / 2 =
        ((2 * (299 * p.r + 587 * p.g + 114 * p.b) + 1000 : ℕ) : ℚ) /
          ((2000 : ℕ) : ℚ) from by push_cast; ring]
    rw [Rat.floor_natCast_div_natCast]
    exact_mod_cast (Int.natCast_div _ _).symm
  rw [hfl]
  have hq : (2 * (299 * p.r + 587 * p.g + 114 * p.b) + 1000) / 2000 ≤ 255 := by omega
  rw [if_neg (by exact_mod_cast not_lt.mpr (Nat.zero_le _)),
    if_neg (by exact_mod_cast not_lt.mpr hq), Int.toNat_natCast]

theorem ppm_eq_div (p : Pixel) (hr : p.r ≤ 255) (hg : p.g ≤ 255)
    (hb : p.b ≤ 255) :
    ppm_to_pgm_weighted p = (299 * p.r + 587 * p.g + 114 * p.b) / 1000 := by
  unfold ppm_to_pgm_weighted
  rw [show (299 / 1000 : ℚ) * p.r + (587 / 1000 : ℚ) * p.g +
      (114 / 1000 : ℚ) * p.b =
      ((299 * p.r + 587 * p.g + 114 * p.b : ℕ) : ℚ) / ((1000 : ℕ) : ℚ) from by
    push_cast; ring]
  exact roundClamp_natCast_div _ 1000 (by omega)

theorem getD_map_lt {α β : Type} (f : α → β) (l : List α) (db : β) (da : α)
    (i : ℕ) (h : i < l.length) :
    (l.map f).getD i db = f (l.getD i da) := by
  rw [List.getD_eq_getElem _ _ (by simpa using h), List.getElem_map,
    List.getD_eq_getElem _ _ h]

theorem getD_take_lt {α : Type} (l : List α) (d : α) (k i : ℕ) (h : i < k)
    (h2 : i < l.length) :
    (l.take k).getD i d = l.getD i d := by
  rw [List.getD_eq_getElem _ _ (by rw [List.length_take]; omega),
    List.getElem_take, List.getD_eq_getElem _ _ h2]

theorem getD_drop_lt {α : Type} (l : List α) (d : α) (k j : ℕ)
    (h : k + j < l.length) :
    (l.drop k).getD j d = l.getD (k + j) d := by
  rw [List.getD_eq_getElem _ _ (by rw [List.length_drop]; omega),
    List.getElem_drop, List.getD_eq_getElem _ _ h]

theorem neon_grayscale_getD (ps : List Pixel) (i : ℕ) (hi : i < ps.length) :
    (neon_weighted_grayscale ps).getD i 0 =
      if i < ps.length / 8 * 8 then neon_fix (ps.getD i ⟨0, 0, 0⟩)
      else ppm_to_pgm_weighted (ps.getD i ⟨0, 0, 0⟩) := by
  unfold neon_weighted_grayscale
  simp only []
  have hkle : ps.length / 8 * 8 ≤ ps.length := Nat.div_mul_le_self _ 8
  by_cases hik : i < ps.length / 8 * 8
  · rw [if_pos hik, List.getD_append]
    · rw [getD_map_lt _ _ 0 ⟨0, 0, 0⟩ i (by rw [List.length_take]; omega),
        getD_take_lt _ _ _ _ hik (by omega)]
    · rw [List.length_map, List.length_take]
      omega
  · rw [if_neg hik, List.getD_append_right]
    · rw [List.length_map, List.length_take,
        show min (ps.length / 8 * 8) ps.length = ps.length / 8 * 8 from by omega,
        getD_map_lt _ _ 0 ⟨0, 0, 0⟩ _ (by rw [List.length_drop]; omega),
        getD_drop_lt _ _ _ _ (by omega),
        show ps.length / 8 * 8 + (i - ps.length / 8 * 8) = i from by omega]
    · rw [List.length_map, List.length_take]
      omega

/-- C7: every output of `neon_weighted_grayscale` — fixed-point
`(77·R + 150·G + 29·B) >> 8` on the vector path, truncating
`round_clamp` fallback on the remainder — is within 1 intensity level of
the spec's rounding floating-point reference `lum_spec` at the same
index, and within 1 of the scalar fallback at the same index. -/
theorem fixed_point_tolerance (ps : List Pixel)
    (hps : ∀ p ∈ ps, p.r ≤ 255 ∧ p.g ≤ 255 ∧ p.b ≤ 255) (i : ℕ)
    (hi : i < ps.length) :
    ((neon_weighted_grayscale ps).getD i 0 ≤
        Spec.lum_spec (ps.getD i ⟨0, 0, 0⟩) + 1 ∧
      Spec.lum_spec (ps.getD i ⟨0, 0, 0⟩) ≤
        (neon_weighted_grayscale ps).getD i 0 + 1) ∧
    ((neon_weighted_grayscale ps).getD i 0 ≤
        ppm_to_pgm_weighted (ps.getD i ⟨0, 0, 0⟩) + 1 ∧
      ppm_to_pgm_weighted (ps.getD i ⟨0, 0, 0⟩) ≤
        (neon_weighted_grayscale ps).getD i 0 + 1) := by
  have hmem : ps.getD i ⟨0, 0, 0⟩ ∈ ps := by
    rw [List.getD_eq_getElem _ _ hi]
    exact List.getElem_mem _
  obtain ⟨hr, hg, hb⟩ := hps _ hmem
  rw [neon_grayscale_getD ps i hi, lum_spec_eq_div _ hr hg hb,
    ppm_eq_div _ hr hg hb]
  unfold neon_fix
  by_cases hik : i < ps.length / 8 * 8
  · rw [if_pos hik]
    omega
  · rw [if_neg hik]
    omega

/-- Witness for C7 at a one-pixel list (scalar-fallback path). -/
theorem fixed_point_tolerance_witness :
    ((neon_weighted_grayscale [⟨255, 0, 0⟩]).getD 0 0 ≤
        Spec.lum_spec (([⟨255, 0, 0⟩] : List Pixel).getD 0 ⟨0, 0, 0⟩) + 1 ∧
      Spec.lum_spec (([⟨255, 0, 0⟩] : List Pixel).getD 0 ⟨0, 0, 0⟩) ≤
        (neon_weighted_grayscale [⟨255, 0, 0⟩]).getD 0 0 + 1) ∧
    ((neon_weighted_grayscale [⟨255, 0, 0⟩]).getD 0 0 ≤
        ppm_to_pgm_weighted (([⟨255, 0, 0⟩] : List Pixel).getD 0 ⟨0, 0, 0⟩) + 1 ∧
      ppm_to_pgm_weighted (([⟨255, 0, 0⟩] : List Pixel).getD 0 ⟨0, 0, 0⟩) ≤
        (neon_weighted_grayscale [⟨255, 0, 0⟩]).getD 0 0 + 1) :=
  fixed_point_tolerance [⟨255, 0, 0⟩] (by decide) 0 (by decide)

/-! ## C10: the NEON mean filter writes only interior pixels -/

theorem getD_set_ne {α : Type} (l : List α) (d : α) (idx p : ℕ) (a : α)
    (h : idx ≠ p) : (l.set idx a).getD p d = l.getD p d := by
  rw [List.getD_eq_getElem?_getD, List.getElem?_set_ne h,
    ← List.getD_eq_getElem?_getD]

theorem foldl_set_frame (idx : ℕ → ℕ) (val : ℕ → ℕ) (p : ℕ) :
    ∀ (xs : List ℕ) (b : List ℕ), (∀ x ∈ xs, idx x ≠ p) →
      (xs.foldl (fun b2 x => b2.set (idx x) (val x)) b).getD p 0 = b.getD p 0
  | [], _, _ => rfl
  | x :: xs, b, h => by
    rw [List.foldl_cons,
      foldl_set_frame idx val p xs _ fun y hy => h y (List.mem_cons_of_mem x hy),
      getD_set_ne _ _ _ _ _ (h x (List.mem_cons_self x xs))]

theorem mean_frame_aux (w : ℕ) (g : List ℕ) (p : ℕ) :
    ∀ (ys : List ℕ) (b : List ℕ),
      (∀ y ∈ ys, ∀ x ∈ List.range' 1 (w - 2), y * w + x ≠ p) →
      ((ys.foldl (fun b y => (List.range' 1 (w - 2)).foldl
          (fun b2 x => b2.set (y * w + x) (mean9 w g x y)) b) b).getD p 0 =
        b.getD p 0)
  | [], _, _ => rfl
  | y :: ys, b, h => by
    rw [List.foldl_cons,
      mean_frame_aux w g p ys _ fun z hz => h z (List.mem_cons_of_mem y hz)]
    exact foldl_set_frame (fun x => y * w + x) (fun x => mean9 w g x y) p _ b
      (h y (List.mem_cons_self y ys))

theorem foldl_fixed_fun {α β : Type} :
    ∀ (l : List β) (b : α), l.foldl (fun acc (_ : β) => acc) b = b
  | [], _ => rfl
  | _ :: xs, b => foldl_fixed_fun xs b

/-- C10: `neon_mean_filter` assigns `new_grayscale[y·width + x]` only for
interior positions `1 ≤ x ≤ width−2`, `1 ≤ y ≤ height−2`.  Every
position whose coordinates are not interior keeps the previous buffer
contents (in the C program: uninitialized memory), and when `width ≤ 2`
or `height ≤ 2` the whole buffer is left untouched. -/
theorem mean_filter_interior_only (w h : ℕ) (g buf : List ℕ) (hw : 0 < w) :
    (∀ p : ℕ, ¬(1 ≤ p % w ∧ p % w ≤ w - 2 ∧ 1 ≤ p / w ∧ p / w ≤ h - 2) →
      (neon_mean_filter w h g buf).getD p 0 = buf.getD p 0) ∧
    ((w ≤ 2 ∨ h ≤ 2) → neon_mean_filter w h g buf = buf) := by
  constructor
  · intro p hp
    unfold neon_mean_filter
    apply mean_frame_aux
    intro y hy x hx hcontra
    rw [List.mem_range'_1] at hy hx
    apply hp
    have hxw : x < w := by omega
    have hmod : (y * w + x) % w = x := by
      rw [Nat.mul_comm y w, Nat.mul_add_mod, Nat.mod_eq_of_lt hxw]
    have hdiv : (y * w + x) / w = y := by
      rw [Nat.mul_comm y w, Nat.mul_add_div hw, Nat.div_eq_of_lt hxw]
      omega
    rw [← hcontra, hmod, hdiv]
    omega
  · intro hwh
    unfold neon_mean_filter
    rcases hwh with hw2 | hh2
    · rw [show w - 2 = 0 from by omega]
      rw [show (fun (b : List ℕ) (y : ℕ) => (List.range' 1 0).foldl
          (fun b2 x => b2.set (y * w + x) (mean9 w g x y)) b) =
          fun (b : List ℕ) (_ : ℕ) => b from by funext b y; rfl]
      exact foldl_fixed_fun _ buf
    · rw [show h - 2 = 0 from by omega]
      rfl

/-- Witness for C10: on a 3×3 buffer the corner keeps the old contents,
and with `width = 2` the filter is the identity on the buffer. -/
theorem mean_filter_interior_only_witness :
    (neon_mean_filter 3 3 [9, 9, 9, 9, 9, 9, 9, 9, 9]
        [7, 7, 7, 7, 7, 7, 7, 7, 7]).getD 0 0 =
      ([7, 7, 7, 7, 7, 7, 7, 7, 7] : List ℕ).getD 0 0 ∧
    neon_mean_filter 2 4 [1, 2, 3, 4, 5, 6, 7, 8]
        [0, 0, 0, 0, 0, 0, 0, 0] = [0, 0, 0, 0, 0, 0, 0, 0] :=
  ⟨(mean_filter_interior_only 3 3 _ _ (by decide)).1 0 (by decide),
    (mean_filter_interior_only 2 4 _ _ (by decide)).2 (Or.inl (by decide))⟩

end Neon
